import Mathlib

/-!
Verification development for the DashcamTools repository.

The repository has two Python source files:
  * concat_video_clips.py  — modelled in namespace Concat;
  * dashcam_clips_viewer.py — modelled in namespace Viewer.

Modelling conventions:
  * Python strings are modelled as List Char (a String wrapper is used where
    the source-level API takes a str); character classes are restricted to
    the ASCII range actually produced by ffmpeg and by dashcam file names
    (Python's str.isdigit / str.strip / str.lower also accept further
    Unicode characters, and int() additionally accepts underscore digit
    grouping; none of that is exercised by this program's inputs).
  * Python floats are modelled as exact rationals (ℚ).
  * GUI / subprocess side effects are not modelled; the pure computations
    feeding them are.
-/

/-- Whitespace stripped by Python's default str.strip(): space, \t, \n, \r,
\v, \f (by code point). -/
def pyIsWs (c : Char) : Bool :=
  c.toNat = 32 || c.toNat = 9 || c.toNat = 10 || c.toNat = 13 ||
  c.toNat = 11 || c.toNat = 12

/-- ASCII digit test: models Python's str.isdigit on single characters and
the regex class \d (restricted to ASCII). -/
def pyIsDigit (c : Char) : Bool := 48 ≤ c.toNat && c.toNat ≤ 57

/-- str.strip(): drop leading and trailing whitespace. -/
def pyStrip (l : List Char) : List Char :=
  ((l.dropWhile pyIsWs).reverse.dropWhile pyIsWs).reverse

/-- Numeric value of a digit string, as int() computes it on all-digit
input. -/
def digitsToNat (l : List Char) : Nat :=
  l.foldl (fun a c => 10 * a + (c.toNat - 48)) 0

/-- int() on an unsigned digit string: succeeds exactly on nonempty
all-digit strings. -/
def parseDigits? (l : List Char) : Option Nat :=
  if !l.isEmpty && l.all pyIsDigit then some (digitsToNat l) else none

/-- Python int(s) on an already stripped string: optional sign followed by
digits; anything else raises (modelled as none). -/
def pyInt? (l : List Char) : Option Int :=
  match l with
  | [] => none
  | c :: rest =>
    if c = '-' then (parseDigits? rest).map (fun n => -(n : Int))
    else if c = '+' then (parseDigits? rest).map (fun n => (n : Int))
    else (parseDigits? l).map (fun n => (n : Int))

/-- str.split(sep) with a one-character separator; acc is the current chunk
collected in reverse. -/
def splitChar (sep : Char) : List Char → List Char → List (List Char)
  | [], acc => [acc.reverse]
  | c :: cs, acc =>
    if c = sep then acc.reverse :: splitChar sep cs []
    else splitChar sep cs (c :: acc)

/-- line.split("=", 1): the part before the first '=' and the part after it.
(When the line has no '=' Python's [1] indexing would raise; both call
sites are guarded by a startswith check on a prefix containing '='.) -/
def splitEqOnce : List Char → List Char × List Char
  | [] => ([], [])
  | c :: rest =>
    if c = '=' then ([], rest)
    else (c :: (splitEqOnce rest).1, (splitEqOnce rest).2)

/-- str.startswith(p). -/
def listStartsWith : List Char → List Char → Bool
  | [], _ => true
  | _ :: _, [] => false
  | p :: ps, c :: cs => p == c && listStartsWith ps cs

/-- Python float(s) magnitude on a plain decimal literal d+ , d+.d* or .d+
(ffmpeg's out_time values; exponents / inf / nan are not modelled). -/
def pyFloatMag? (l : List Char) : Option ℚ :=
  match splitChar '.' l [] with
  | [ip] => if !ip.isEmpty && ip.all pyIsDigit then some (digitsToNat ip) else none
  | [ip, fp] =>
    if !(ip ++ fp).isEmpty && (ip ++ fp).all pyIsDigit then
      some ((digitsToNat ip : ℚ) + (digitsToNat fp : ℚ) / 10 ^ fp.length)
    else none
  | _ => none

/-- Python float(s) on an already stripped decimal literal with optional
sign. -/
def pyFloat? (l : List Char) : Option ℚ :=
  match l with
  | [] => none
  | c :: rest =>
    if c = '-' then (pyFloatMag? rest).map Neg.neg
    else if c = '+' then pyFloatMag? rest
    else pyFloatMag? l

/-- An element of the key list produced by natural_keys: Python's list holds
a mix of str and int values. -/
inductive NK where
  | str : List Char → NK
  | num : Nat → NK
deriving DecidableEq

/-- Lexicographic comparison of Python strings (by code point); Char.toLower
is applied before comparison by natural_keys itself. -/
def charListCompare : List Char → List Char → Ordering
  | [], [] => .eq
  | [], _ :: _ => .lt
  | _ :: _, [] => .gt
  | a :: as, b :: bs =>
    if a.toNat < b.toNat then .lt
    else if b.toNat < a.toNat then .gt
    else charListCompare as bs

/-- Comparison of two key elements as Python's < performs it: int/int and
str/str compare normally, a mixed comparison raises TypeError (none). -/
def nkCompare : NK → NK → Option Ordering
  | .str a, .str b => some (charListCompare a b)
  | .num a, .num b => some (compare a b)
  | _, _ => none

/-- Comparison of two Python lists (as used when sorting by natural_keys):
elementwise, first difference decides, a mixed-type element comparison
raises (none), exhausted prefixes compare by length. -/
def keyCompare : List NK → List NK → Option Ordering
  | [], [] => some .eq
  | [], _ :: _ => some .lt
  | _ :: _, [] => some .gt
  | a :: as, b :: bs =>
    match nkCompare a b with
    | none => none
    | some .eq => keyCompare as bs
    | some o => some o

/-- re.split(r'(\d+)', text): alternating non-digit and digit chunks, with
the (possibly empty) non-digit chunks kept, including at both ends.
The Bool flag tells whether the chunk currently collected in acc (stored
reversed) is a digit run. -/
def reSplitGo : List Char → Bool → List Char → List (List Char)
  | [], false, acc => [acc.reverse]
  | [], true, acc => [acc.reverse, []]
  | c :: cs, false, acc =>
    if pyIsDigit c then acc.reverse :: reSplitGo cs true [c]
    else reSplitGo cs false (c :: acc)
  | c :: cs, true, acc =>
    if pyIsDigit c then reSplitGo cs true (c :: acc)
    else acc.reverse :: reSplitGo cs false [c]

/-- re.split(r'(\d+)', text). -/
def reSplitDigits (l : List Char) : List (List Char) := reSplitGo l false []

namespace Concat

/-- atoi helper inside natural_keys of concat_video_clips.py:
int(tok) if tok.isdigit() else tok.lower(). -/
def atoi (tok : List Char) : NK :=
  if tok.all pyIsDigit && !tok.isEmpty then .num (digitsToNat tok)
  else .str (tok.map Char.toLower)

/-- natural_keys of concat_video_clips.py. -/
def natural_keys (text : String) : List NK :=
  (reSplitDigits text.data).map atoi

/-- First while loop of _build_atempo_chain: while factor < 0.5, append 0.5
and divide factor by 0.5 (i.e. double it).  The loop is run with an explicit
iteration bound; halfSteps_lower together with two_pow_den_sufficient
proves the bound chosen in _build_atempo_chain is large enough for the
guard to be false on exit, so this equals the unbounded Python loop for
every positive factor. -/
def halfSteps : Nat → ℚ → List ℚ × ℚ
  | 0, f => ([], f)
  | k + 1, f =>
    if f < 1/2 then
      ((1/2) :: (halfSteps k (f * 2)).1, (halfSteps k (f * 2)).2)
    else ([], f)

/-- Second while loop of _build_atempo_chain: while factor > 2.0, append 2.0
and halve factor; bounded analogously (doubleSteps_upper, two_pow_num_sufficient). -/
def doubleSteps : Nat → ℚ → List ℚ × ℚ
  | 0, f => ([], f)
  | k + 1, f =>
    if 2 < f then
      ((2 : ℚ) :: (doubleSteps k (f / 2)).1, (doubleSteps k (f / 2)).2)
    else ([], f)

/-- _build_atempo_chain of concat_video_clips.py (floats modelled as ℚ,
the tolerance 1e-6 as the rational 1/1000000). -/
def _build_atempo_chain (factor : ℚ) : List ℚ :=
  if factor ≤ 0 then []
  else
    let u := halfSteps factor.den factor
    let d := doubleSteps u.2.num.natAbs u.2
    u.1 ++ d.1 ++ (if 1/1000000 < |d.2 - 1| then [d.2] else [])

/-- The progress-stream handling of one raw line read from the ffmpeg
subprocess inside run_ffmpeg_concat: returns the value passed to
progress_callback, if any.  (Lines routed to log_callback and the
"progress=" lines produce no progress value.) -/
def process_progress_line (raw : List Char) : Option ℚ :=
  if (pyStrip raw).isEmpty then none
  else if listStartsWith "out_time_ms=".data (pyStrip raw) then
    match pyInt? (pyStrip (splitEqOnce (pyStrip raw)).2) with
    | some n => some ((n : ℚ) / 1000000)
    | none => none
  else if listStartsWith "out_time=".data (pyStrip raw) then
    match splitChar ':' (pyStrip (splitEqOnce (pyStrip raw)).2) [] with
    | [hh, mm, ss] =>
      match pyInt? hh, pyInt? mm, pyFloat? ss with
      | some h, some m, some s => some ((h : ℚ) * 3600 + (m : ℚ) * 60 + s)
      | _, _, _ => none
    | _ => none
  else none

/-- The sequence of values run_ffmpeg_concat passes to progress_callback
while consuming the given raw lines of subprocess output, in order. -/
def progress_callback_values (rawLines : List (List Char)) : List ℚ :=
  rawLines.filterMap process_progress_line

end Concat

namespace Viewer

/-- natural_keys of dashcam_clips_viewer.py (textually identical to the one
in concat_video_clips.py). -/
def atoi (tok : List Char) : NK :=
  if tok.all pyIsDigit && !tok.isEmpty then .num (digitsToNat tok)
  else .str (tok.map Char.toLower)

/-- natural_keys of dashcam_clips_viewer.py. -/
def natural_keys (text : String) : List NK :=
  (reSplitDigits text.data).map atoi

/-- clamp of dashcam_clips_viewer.py: max(lo, min(hi, val)). -/
def clamp (val lo hi : Int) : Int := max lo (min hi val)

/-- One clip descriptor dict built by _load_folder (path, fps, frames,
width, height, start_frame, start_time). -/
structure Clip where
  path : String
  fps : ℚ
  frames : Nat
  width : Nat
  height : Nat
  start_frame : Nat
  start_time : ℚ
deriving DecidableEq

/-- Sum of the frame counts of a descriptor list. -/
def totalOf (files : List Clip) : Nat := (files.map Clip.frames).sum

/-- The clip table is contiguous and gapless starting at global frame b:
each descriptor's start_frame is b plus the frames of all earlier ones. -/
def contiguousFrom : Nat → List Clip → Bool
  | _, [] => true
  | b, f :: rest => (f.start_frame == b) && contiguousFrom (b + f.frames) rest

/-- The for-loop of _global_to_file_local: first clip whose exclusive end
exceeds gframe, paired with the local offset. -/
def _scan_loop : List Clip → Nat → Int → Option (Nat × Int)
  | [], _, _ => none
  | f :: rest, i, g =>
    if g < (f.start_frame : Int) + (f.frames : Int) then
      some (i, g - (f.start_frame : Int))
    else _scan_loop rest (i + 1) g

/-- _global_to_file_local of dashcam_clips_viewer.py.  The fallback branch
indexes self.files[last]; on an empty list Python would raise IndexError,
modelled by the (0, 0) default. -/
def _global_to_file_local (files : List Clip) (total_frames : Nat) (gframe : Int) :
    Nat × Int :=
  let g := clamp gframe 0 (max 0 ((total_frames : Int) - 1))
  match _scan_loop files 0 g with
  | some r => r
  | none =>
    match files.getLast? with
    | some f => (files.length - 1, max 0 ((f.frames : Int) - 1))
    | none => (0, 0)

/-- Result of one cv2.VideoCapture probe in _load_folder for a file that
opened: raw fps and the int()-cast frame count and dimensions. -/
structure Probe where
  fps : ℚ
  frames : Nat
  width : Nat
  height : Nat
deriving DecidableEq

/-- The metadata-index loop of _load_folder: entries are the sorted .mp4
paths paired with their probe result (none when cv2 cannot open the file,
which the loop skips).  Returns (files, total_frames, total_secs); the
start_frame / start_time accumulators are threaded as in the source. -/
def _load_folder_loop : List (String × Option Probe) → Nat → ℚ → List Clip × Nat × ℚ
  | [], _, _ => ([], 0, 0)
  | (_, none) :: rest, sf, st => _load_folder_loop rest sf st
  | (p, some pr) :: rest, sf, st =>
    let fps := if pr.fps ≤ 1/1000 then 30 else pr.fps
    let dur := if 0 < pr.frames then (pr.frames : ℚ) / fps else 0
    let r := _load_folder_loop rest (sf + pr.frames) (st + dur)
    (⟨p, fps, pr.frames, pr.width, pr.height, sf, st⟩ :: r.1,
     pr.frames + r.2.1, dur + r.2.2)

/-- Outcome of _load_folder: either one of its two error dialogs, or the
loaded state (self.files, self.total_frames, self.total_seconds). -/
inductive LoadOutcome where
  | errorNoVideos : LoadOutcome
  | errorNoFrames : LoadOutcome
  | loaded : List Clip → Nat → ℚ → LoadOutcome
deriving DecidableEq

/-- _load_folder of dashcam_clips_viewer.py, from the sorted probe results:
empty folder shows the "No videos" dialog; a zero total frame count shows
the "No frames" dialog; otherwise the player state is (re)built. -/
def _load_folder (entries : List (String × Option Probe)) : LoadOutcome :=
  if entries.isEmpty then .errorNoVideos
  else
    let r := _load_folder_loop entries 0 0
    if r.2.1 = 0 then .errorNoFrames else .loaded r.1 r.2.1 r.2.2

/-- Whether the outcome of a folder load is a user-facing error dialog. -/
def showsErrorDialog : LoadOutcome → Bool
  | .loaded _ _ _ => false
  | _ => true

end Viewer

/-! ### The frame-index mapper (claims C1, C3, C10) -/

namespace Viewer

/-- On a clip table that is contiguous from b, the linear scan of
_global_to_file_local finds, for any g with b ≤ g < b + (sum of frames),
the clip owning g and its local offset. -/
theorem scan_finds (files : List Clip) :
    ∀ (b i : Nat) (g : Int), contiguousFrom b files = true →
      (b : Int) ≤ g → g < (b : Int) + (totalOf files : Int) →
      ∃ k f, files[k]? = some f ∧
        _scan_loop files i g = some (i + k, g - (f.start_frame : Int)) ∧
        (f.start_frame : Int) ≤ g ∧ g < (f.start_frame : Int) + (f.frames : Int) := by
  induction files with
  | nil =>
    intro b i g _ hlo hhi
    simp [totalOf] at hhi
    omega
  | cons f rest ih =>
    intro b i g hc hlo hhi
    simp only [contiguousFrom, Bool.and_eq_true, beq_iff_eq] at hc
    obtain ⟨hb, hc'⟩ := hc
    subst hb
    by_cases h1 : g < (f.start_frame : Int) + (f.frames : Int)
    · refine ⟨0, f, by simp, ?_, hlo, h1⟩
      simp [_scan_loop, h1]
    · have htot : totalOf (f :: rest) = f.frames + totalOf rest := by
        simp [totalOf]
      obtain ⟨k, f', hget, hscan, hle, hlt⟩ :=
        ih (f.start_frame + f.frames) (i + 1) g hc' (by push_cast; omega)
          (by push_cast; rw [htot] at hhi; push_cast at hhi; omega)
      refine ⟨k + 1, f', by simpa using hget, ?_, hle, hlt⟩
      rw [show i + (k + 1) = (i + 1) + k by omega]
      simp [_scan_loop, h1, hscan]

end Viewer

/-- C1: on a non-empty clip table whose start_frame fields are contiguous
from 0, for every global frame index g with 0 ≤ g < total_frames (the sum of
all frame counts), _global_to_file_local returns a pair (i, local) with
files[i].start_frame ≤ g < files[i].start_frame + files[i].frames and
local = g - files[i].start_frame. -/
theorem c1_global_to_file_local_correct (files : List Viewer.Clip)
    (hne : files ≠ []) (hc : Viewer.contiguousFrom 0 files = true) (g : Int)
    (h0 : 0 ≤ g) (hlt : g < (Viewer.totalOf files : Int)) :
    ∃ k f, files[k]? = some f ∧
      Viewer._global_to_file_local files (Viewer.totalOf files) g
        = (k, g - (f.start_frame : Int)) ∧
      (f.start_frame : Int) ≤ g ∧ g < (f.start_frame : Int) + (f.frames : Int) := by
  have hclamp : Viewer.clamp g 0 (max 0 ((Viewer.totalOf files : Int) - 1)) = g := by
    unfold Viewer.clamp; omega
  obtain ⟨k, f, hget, hscan, hle, hltf⟩ :=
    Viewer.scan_finds files 0 0 g hc (by omega) (by push_cast; omega)
  refine ⟨k, f, hget, ?_, hle, hltf⟩
  simp [Viewer._global_to_file_local, hclamp, hscan]

/-- Witness for C1 at a concrete two-clip table and the boundary frame
g = 2 (first frame of the second clip). -/
theorem c1_witness :
    ∃ k f,
      ([⟨"a", 30, 2, 640, 480, 0, 0⟩, ⟨"b", 30, 3, 640, 480, 2, 0⟩] :
          List Viewer.Clip)[k]? = some f ∧
      Viewer._global_to_file_local
          [⟨"a", 30, 2, 640, 480, 0, 0⟩, ⟨"b", 30, 3, 640, 480, 2, 0⟩]
          (Viewer.totalOf [⟨"a", 30, 2, 640, 480, 0, 0⟩, ⟨"b", 30, 3, 640, 480, 2, 0⟩])
          2
        = (k, 2 - (f.start_frame : Int)) ∧
      (f.start_frame : Int) ≤ 2 ∧ 2 < (f.start_frame : Int) + (f.frames : Int) :=
  c1_global_to_file_local_correct _ (by decide) (by decide) 2 (by decide) (by decide)

/-- C3: _global_to_file_local first clamps its input into
[0, total_frames - 1]; hence its result at any input equals its result at
the clamped input, and in particular an out-of-range input maps exactly as
the nearest in-range index (0 for negative inputs, total_frames - 1 for
inputs ≥ total_frames). -/
theorem c3_out_of_range_clamps (files : List Viewer.Clip) (total : Nat) (g : Int) :
    Viewer._global_to_file_local files total g
      = Viewer._global_to_file_local files total
          (Viewer.clamp g 0 (max 0 ((total : Int) - 1)))
    ∧ (0 < total → g < 0 →
        Viewer._global_to_file_local files total g
          = Viewer._global_to_file_local files total 0)
    ∧ (0 < total → (total : Int) ≤ g →
        Viewer._global_to_file_local files total g
          = Viewer._global_to_file_local files total ((total : Int) - 1)) := by
  have key : ∀ g1 g2 : Int,
      Viewer.clamp g1 0 (max 0 ((total : Int) - 1))
        = Viewer.clamp g2 0 (max 0 ((total : Int) - 1)) →
      Viewer._global_to_file_local files total g1
        = Viewer._global_to_file_local files total g2 := by
    intro g1 g2 h
    simp only [Viewer._global_to_file_local, h]
  refine ⟨key _ _ ?_, fun ht hg => key _ _ ?_, fun ht hg => key _ _ ?_⟩ <;>
    (unfold Viewer.clamp; omega)

/-- Witness for C3 on a one-clip table: a negative input maps like 0 and an
overlarge input maps like total - 1. -/
theorem c3_witness :
    Viewer._global_to_file_local [⟨"a", 30, 2, 640, 480, 0, 0⟩] 2 (-7)
      = Viewer._global_to_file_local [⟨"a", 30, 2, 640, 480, 0, 0⟩] 2 0
    ∧ Viewer._global_to_file_local [⟨"a", 30, 2, 640, 480, 0, 0⟩] 2 99
      = Viewer._global_to_file_local [⟨"a", 30, 2, 640, 480, 0, 0⟩] 2 (2 - 1) :=
  ⟨(c3_out_of_range_clamps [⟨"a", 30, 2, 640, 480, 0, 0⟩] 2 (-7)).2.1
      (by decide) (by decide),
   (c3_out_of_range_clamps [⟨"a", 30, 2, 640, 480, 0, 0⟩] 2 99).2.2
      (by decide) (by decide)⟩

/-- C10: under the stated preconditions (non-empty table, contiguous from 0,
positive total frame sum) the linear scan always returns from inside the
loop, so _global_to_file_local never takes its fallback branch. -/
theorem c10_fallback_unreachable (files : List Viewer.Clip) (hne : files ≠ [])
    (hc : Viewer.contiguousFrom 0 files = true)
    (hpos : 0 < Viewer.totalOf files) (g : Int) :
    ∃ r, Viewer._scan_loop files 0
        (Viewer.clamp g 0 (max 0 ((Viewer.totalOf files : Int) - 1))) = some r ∧
      Viewer._global_to_file_local files (Viewer.totalOf files) g = r := by
  set g' := Viewer.clamp g 0 (max 0 ((Viewer.totalOf files : Int) - 1)) with hg'
  have h1 : 0 ≤ g' ∧ g' < (Viewer.totalOf files : Int) := by
    rw [hg']; unfold Viewer.clamp; omega
  obtain ⟨k, f, _, hscan, _, _⟩ :=
    Viewer.scan_finds files 0 0 g' hc (by omega) (by push_cast; omega)
  exact ⟨_, hscan, by simp [Viewer._global_to_file_local, ← hg', hscan]⟩

/-- Witness for C10 at a concrete two-clip table and an out-of-range input. -/
theorem c10_witness :
    ∃ r, Viewer._scan_loop [⟨"a", 30, 2, 640, 480, 0, 0⟩, ⟨"b", 30, 3, 640, 480, 2, 0⟩] 0
        (Viewer.clamp 17 0
          (max 0 ((Viewer.totalOf
            [⟨"a", 30, 2, 640, 480, 0, 0⟩, ⟨"b", 30, 3, 640, 480, 2, 0⟩] : Int) - 1)))
        = some r ∧
      Viewer._global_to_file_local [⟨"a", 30, 2, 640, 480, 0, 0⟩, ⟨"b", 30, 3, 640, 480, 2, 0⟩]
        (Viewer.totalOf [⟨"a", 30, 2, 640, 480, 0, 0⟩, ⟨"b", 30, 3, 640, 480, 2, 0⟩]) 17 = r :=
  c10_fallback_unreachable _ (by decide) (by decide) (by decide) 17

/-! ### Folder loading (claims C4, C7) -/

namespace Viewer

/-- The index-building loop of _load_folder produces a table contiguous from
the initial start_frame accumulator, and its running total_frames equals the
sum of the frame counts of the descriptors it builds. -/
theorem load_loop_contiguous (entries : List (String × Option Probe)) :
    ∀ (sf : Nat) (st : ℚ),
      contiguousFrom sf (_load_folder_loop entries sf st).1 = true ∧
      (_load_folder_loop entries sf st).2.1 = totalOf (_load_folder_loop entries sf st).1 := by
  induction entries with
  | nil => intro sf st; simp [_load_folder_loop, contiguousFrom, totalOf]
  | cons e rest ih =>
    intro sf st
    obtain ⟨p, pr⟩ := e
    cases pr with
    | none => simpa [_load_folder_loop] using ih sf st
    | some pr =>
      simp only [_load_folder_loop]
      constructor
      · simp only [contiguousFrom, beq_self_eq_true, Bool.true_and]
        exact (ih _ _).1
      · simp only [totalOf, List.map_cons, List.sum_cons]
        rw [(ih _ _).2]
        rfl

/-- If every probe in the folder failed to open, the loop builds nothing. -/
theorem load_loop_all_unreadable (entries : List (String × Option Probe)) :
    ∀ (sf : Nat) (st : ℚ), (∀ e ∈ entries, e.2 = none) →
      _load_folder_loop entries sf st = ([], 0, 0) := by
  induction entries with
  | nil => intro sf st _; rfl
  | cons e rest ih =>
    intro sf st h
    obtain ⟨p, pr⟩ := e
    have hp : pr = none := h (p, pr) (by simp)
    subst hp
    simpa [_load_folder_loop] using ih sf st fun e he => h e (by simp [he])

end Viewer

/-- C4: whenever a folder load succeeds (_load_folder returns the loaded
state, which requires total_frames > 0), the clip table is contiguous and
gapless from global frame 0 — the first descriptor starts at 0 and each
start_frame is the running sum of the earlier frame counts — and
total_frames is the sum of all descriptors' frame counts.  _load_folder is
a pure function of the probed folder contents, so the invariant is
re-established on every reload. -/
theorem c4_load_folder_contiguous (entries : List (String × Option Viewer.Probe))
    (files : List Viewer.Clip) (tf : Nat) (ts : ℚ)
    (h : Viewer._load_folder entries = .loaded files tf ts) :
    Viewer.contiguousFrom 0 files = true ∧ tf = Viewer.totalOf files ∧
      ∀ f, files.head? = some f → f.start_frame = 0 := by
  unfold Viewer._load_folder at h
  by_cases he : entries.isEmpty = true <;> simp only [he, if_true, if_false, Bool.false_eq_true,
    reduceIte] at h
  · cases h
  · by_cases hz : (Viewer._load_folder_loop entries 0 0).2.1 = 0 <;>
      simp only [hz, if_true, if_false, reduceIte] at h
    · cases h
    · rw [Viewer.LoadOutcome.loaded.injEq] at h
      obtain ⟨h1, h2, h3⟩ := h
      subst h1; subst h2
      obtain ⟨hc, ht⟩ := Viewer.load_loop_contiguous entries 0 0
      refine ⟨hc, ht, ?_⟩
      intro f hf
      cases hfl : (Viewer._load_folder_loop entries 0 0).1 with
      | nil => simp [hfl] at hf
      | cons f0 rest =>
        rw [hfl] at hf hc
        simp only [List.head?_cons, Option.some.injEq] at hf
        subst hf
        simp [Viewer.contiguousFrom, Bool.and_eq_true, beq_iff_eq] at hc
        exact hc.1

/-- Witness for C4 at a concrete folder with one unreadable clip between two
readable ones. -/
theorem c4_witness :
    Viewer.contiguousFrom 0
        [⟨"a", 30, 2, 640, 480, 0, 0⟩, ⟨"c", 30, 3, 640, 480, 2, 1/15⟩] = true ∧
      (5 : Nat) = Viewer.totalOf
        [⟨"a", 30, 2, 640, 480, 0, 0⟩, ⟨"c", 30, 3, 640, 480, 2, 1/15⟩] ∧
      ∀ f, ([⟨"a", 30, 2, 640, 480, 0, 0⟩, ⟨"c", 30, 3, 640, 480, 2, 1/15⟩] :
          List Viewer.Clip).head? = some f → f.start_frame = 0 :=
  c4_load_folder_contiguous
    [("a", some ⟨30, 2, 640, 480⟩), ("b", none), ("c", some ⟨30, 3, 640, 480⟩)]
    [⟨"a", 30, 2, 640, 480, 0, 0⟩, ⟨"c", 30, 3, 640, 480, 2, 1/15⟩] 5 (1/6)
    (by norm_num [Viewer._load_folder, Viewer._load_folder_loop])

/-- C7 counterexample: a folder whose first clip cannot be opened but whose
second clip reads fine produces no error dialog at all — _load_folder
silently skips the unreadable clip. -/
theorem c7_counterexample :
    Viewer.showsErrorDialog
        (Viewer._load_folder [("a.mp4", none), ("b.mp4", some ⟨30, 10, 640, 480⟩)]) = false
      ∧ ("a.mp4", (none : Option Viewer.Probe))
          ∈ [("a.mp4", none), ("b.mp4", some ⟨30, 10, 640, 480⟩)] := by
  constructor
  · norm_num [Viewer._load_folder, Viewer._load_folder_loop, Viewer.showsErrorDialog]
  · simp

/-- C7 (amended): an unreadable clip is not individually surfaced — it is
silently skipped.  A user-facing error dialog appears exactly when the
folder has no .mp4 files at all or when no frames could be read from any
file (total frame count 0); in particular, when every selected file fails
to open, a dialog is shown. -/
theorem c7_amended_dialog_iff (entries : List (String × Option Viewer.Probe)) :
    (Viewer.showsErrorDialog (Viewer._load_folder entries) = true ↔
      entries = [] ∨ (Viewer._load_folder_loop entries 0 0).2.1 = 0)
    ∧ ((∀ e ∈ entries, e.2 = none) →
        Viewer.showsErrorDialog (Viewer._load_folder entries) = true) := by
  have hiff : Viewer.showsErrorDialog (Viewer._load_folder entries) = true ↔
      entries = [] ∨ (Viewer._load_folder_loop entries 0 0).2.1 = 0 := by
    unfold Viewer._load_folder
    by_cases he : entries.isEmpty = true <;>
      simp only [he, Bool.false_eq_true, reduceIte]
    · simp [Viewer.showsErrorDialog, List.isEmpty_iff.mp he]
    · have hne : ¬ entries = [] := by
        simpa [List.isEmpty_iff] using he
      by_cases hz : (Viewer._load_folder_loop entries 0 0).2.1 = 0 <;>
        simp [hz, Viewer.showsErrorDialog, hne]
  refine ⟨hiff, fun hall => hiff.mpr (Or.inr ?_)⟩
  rw [Viewer.load_loop_all_unreadable entries 0 0 hall]

/-- Witness for the amended C7: a folder where every clip fails to open
does get a dialog. -/
theorem c7_witness :
    Viewer.showsErrorDialog
      (Viewer._load_folder [("a.mp4", none), ("b.mp4", (none : Option Viewer.Probe))]) = true :=
  (c7_amended_dialog_iff [("a.mp4", none), ("b.mp4", none)]).2 (by simp)

/-! ### The atempo chain (claim C2) -/

namespace Concat

theorem halfSteps_prod (k : Nat) : ∀ f : ℚ, (halfSteps k f).1.prod * (halfSteps k f).2 = f := by
  induction k with
  | zero => intro f; simp [halfSteps]
  | succ k ih =>
    intro f
    by_cases h : f < 1/2
    · simp only [halfSteps, h, if_true, List.prod_cons]
      rw [mul_assoc, ih (f * 2)]
      ring
    · simp only [halfSteps]
      rw [if_neg h]
      simp

theorem halfSteps_mem (k : Nat) : ∀ (f x : ℚ), x ∈ (halfSteps k f).1 → x = 1/2 := by
  induction k with
  | zero => intro f x hx; simp [halfSteps] at hx
  | succ k ih =>
    intro f x hx
    by_cases h : f < 1/2
    · simp only [halfSteps, h, if_true, List.mem_cons] at hx
      rcases hx with hx | hx
      · exact hx
      · exact ih _ _ hx
    · simp only [halfSteps] at hx
      rw [if_neg h] at hx
      simp at hx

/-- With at least k iterations of budget where 2^k * f already reaches 1/2, the
first while loop exits with its guard false: the residual factor is ≥ 1/2. -/
theorem halfSteps_lower (k : Nat) : ∀ f : ℚ, 1/2 ≤ 2 ^ k * f → 1/2 ≤ (halfSteps k f).2 := by
  induction k with
  | zero => intro f h; simpa [halfSteps] using h
  | succ k ih =>
    intro f h
    by_cases hf : f < 1/2
    · simp only [halfSteps, hf, if_true]
      refine ih (f * 2) ?_
      have he : (2:ℚ) ^ k * (f * 2) = 2 ^ (k + 1) * f := by ring
      rw [he]
      exact h
    · simp only [halfSteps]
      rw [if_neg hf]
      exact not_lt.mp hf

theorem halfSteps_upper (k : Nat) : ∀ f : ℚ, (halfSteps k f).2 < 1 ∨ (halfSteps k f).2 = f := by
  induction k with
  | zero => intro f; right; rfl
  | succ k ih =>
    intro f
    by_cases hf : f < 1/2
    · simp only [halfSteps, hf, if_true]
      rcases ih (f * 2) with h | h
      · exact Or.inl h
      · exact Or.inl (by rw [h]; linarith)
    · right
      simp only [halfSteps]
      rw [if_neg hf]

theorem doubleSteps_prod (k : Nat) :
    ∀ f : ℚ, (doubleSteps k f).1.prod * (doubleSteps k f).2 = f := by
  induction k with
  | zero => intro f; simp [doubleSteps]
  | succ k ih =>
    intro f
    by_cases h : 2 < f
    · simp only [doubleSteps, h, if_true, List.prod_cons]
      rw [mul_assoc, ih (f / 2)]
      ring
    · simp only [doubleSteps]
      rw [if_neg h]
      simp

theorem doubleSteps_mem (k : Nat) : ∀ (f x : ℚ), x ∈ (doubleSteps k f).1 → x = 2 := by
  induction k with
  | zero => intro f x hx; simp [doubleSteps] at hx
  | succ k ih =>
    intro f x hx
    by_cases h : 2 < f
    · simp only [doubleSteps, h, if_true, List.mem_cons] at hx
      rcases hx with hx | hx
      · exact hx
      · exact ih _ _ hx
    · simp only [doubleSteps] at hx
      rw [if_neg h] at hx
      simp at hx

/-- With at least k iterations where f ≤ 2 * 2^k, the second while loop
exits with its guard false: the residual factor is ≤ 2. -/
theorem doubleSteps_upper (k : Nat) : ∀ f : ℚ, f ≤ 2 * 2 ^ k → (doubleSteps k f).2 ≤ 2 := by
  induction k with
  | zero => intro f h; simpa [doubleSteps] using h
  | succ k ih =>
    intro f h
    by_cases hf : 2 < f
    · simp only [doubleSteps, hf, if_true]
      refine ih (f / 2) ?_
      rw [div_le_iff₀ (by norm_num : (0:ℚ) < 2)]
      calc f ≤ 2 * 2 ^ (k + 1) := h
        _ = 2 * 2 ^ k * 2 := by ring
    · simp only [doubleSteps]
      rw [if_neg hf]
      exact not_lt.mp hf

theorem doubleSteps_lower (k : Nat) : ∀ f : ℚ, 1 < (doubleSteps k f).2 ∨ (doubleSteps k f).2 = f := by
  induction k with
  | zero => intro f; right; rfl
  | succ k ih =>
    intro f
    by_cases hf : 2 < f
    · simp only [doubleSteps, hf, if_true]
      rcases ih (f / 2) with h | h
      · exact Or.inl h
      · exact Or.inl (by rw [h]; linarith)
    · right
      simp only [doubleSteps]
      rw [if_neg hf]

/-- The iteration bound factor.den used by _build_atempo_chain for the first
loop is sufficient: doubling a positive rational den-many times reaches 1/2. -/
theorem two_pow_den_sufficient (f : ℚ) (hf : 0 < f) : 1/2 ≤ 2 ^ f.den * f := by
  have hden : 0 < (f.den : ℚ) := by exact_mod_cast f.pos
  have hnum : (1 : ℚ) ≤ (f.num : ℚ) := by exact_mod_cast Rat.num_pos.mpr hf
  have hf1 : 1 / (f.den : ℚ) ≤ f := by
    conv_rhs => rw [← Rat.num_div_den f]
    gcongr
  have hpow : (f.den : ℚ) ≤ 2 ^ f.den := by
    have h := (Nat.lt_two_pow f.den).le
    exact_mod_cast h
  have h2 : (1:ℚ) ≤ 2 ^ f.den * (1 / f.den) := by
    rw [mul_one_div, le_div_iff₀ hden, one_mul]
    exact hpow
  have h3 : 2 ^ f.den * (1 / (f.den : ℚ)) ≤ 2 ^ f.den * f :=
    mul_le_mul_of_nonneg_left hf1 (by positivity)
  linarith

/-- The iteration bound num.natAbs used for the second loop is sufficient:
halving a positive rational num-many times brings it under 2. -/
theorem two_pow_num_sufficient (f : ℚ) (hf : 0 < f) : f ≤ 2 * 2 ^ f.num.natAbs := by
  have hnum0 : (0:ℤ) ≤ f.num := (Rat.num_pos.mpr hf).le
  have hden1 : (1 : ℚ) ≤ (f.den : ℚ) := by exact_mod_cast f.pos
  have hfn : f ≤ (f.num : ℚ) := by
    conv_lhs => rw [← Rat.num_div_den f]
    exact div_le_self (by exact_mod_cast hnum0) hden1
  have habs : ((f.num.natAbs : ℚ)) = (f.num : ℚ) := by
    rw [Int.cast_natAbs]
    exact_mod_cast abs_of_nonneg hnum0
  have hpow : ((f.num.natAbs : ℚ)) ≤ 2 ^ f.num.natAbs := by
    have h := (Nat.lt_two_pow f.num.natAbs).le
    exact_mod_cast h
  have hp : (0:ℚ) ≤ 2 ^ f.num.natAbs := by positivity
  calc f ≤ (f.num : ℚ) := hfn
    _ = (f.num.natAbs : ℚ) := habs.symm
    _ ≤ 2 ^ f.num.natAbs := hpow
    _ ≤ 2 * 2 ^ f.num.natAbs := by linarith

end Concat

/-- C2: for every positive speed ratio, _build_atempo_chain returns factors
that all lie in [0.5, 2.0], and their product equals the requested ratio up
to the 1e-6 tolerance the code applies to the final factor (exactly the
ratio when a final factor is emitted; a residue within 1e-6 of 1 is dropped,
which also covers the empty chain for ratios within tolerance of 1). -/
theorem c2_atempo_chain_correct (factor : ℚ) (h : 0 < factor) :
    (∀ s ∈ Concat._build_atempo_chain factor, 1/2 ≤ s ∧ s ≤ 2) ∧
    ∃ ε : ℚ, |ε - 1| ≤ 1/1000000 ∧ (Concat._build_atempo_chain factor).prod * ε = factor := by
  set u := Concat.halfSteps factor.den factor with hu
  set d := Concat.doubleSteps u.2.num.natAbs u.2 with hd
  have hchain : Concat._build_atempo_chain factor
      = u.1 ++ d.1 ++ (if 1/1000000 < |d.2 - 1| then [d.2] else []) := by
    unfold Concat._build_atempo_chain
    rw [if_neg (not_le.mpr h)]
  have hu_lower : 1/2 ≤ u.2 :=
    Concat.halfSteps_lower _ _ (Concat.two_pow_den_sufficient factor h)
  have hu_prod : u.1.prod * u.2 = factor := Concat.halfSteps_prod _ _
  have hu2_pos : 0 < u.2 := lt_of_lt_of_le (by norm_num) hu_lower
  have hd_upper : d.2 ≤ 2 :=
    Concat.doubleSteps_upper _ _ (Concat.two_pow_num_sufficient u.2 hu2_pos)
  have hd_lower' : 1 < d.2 ∨ d.2 = u.2 := Concat.doubleSteps_lower _ _
  have hd_lower : 1/2 ≤ d.2 := by
    rcases hd_lower' with h' | h'
    · linarith
    · rw [h']; exact hu_lower
  have hd_prod : d.1.prod * d.2 = u.2 := Concat.doubleSteps_prod _ _
  rw [hchain]
  by_cases htol : 1/1000000 < |d.2 - 1|
  · rw [if_pos htol]
    constructor
    · intro s hs
      rcases List.mem_append.mp hs with hs' | hs'
      · rcases List.mem_append.mp hs' with hs'' | hs''
        · rw [Concat.halfSteps_mem _ _ _ hs'']; norm_num
        · rw [Concat.doubleSteps_mem _ _ _ hs'']; norm_num
      · rw [List.mem_singleton.mp hs']
        exact ⟨hd_lower, hd_upper⟩
    · refine ⟨1, by norm_num, ?_⟩
      rw [mul_one, List.prod_append, List.prod_append, List.prod_singleton, mul_assoc, hd_prod, hu_prod]
  · rw [if_neg htol]
    constructor
    · intro s hs
      rw [List.append_nil] at hs
      rcases List.mem_append.mp hs with hs' | hs'
      · rw [Concat.halfSteps_mem _ _ _ hs']; norm_num
      · rw [Concat.doubleSteps_mem _ _ _ hs']; norm_num
    · refine ⟨d.2, not_lt.mp htol, ?_⟩
      rw [List.append_nil, List.prod_append, mul_assoc, hd_prod, hu_prod]

/-- Witness for C2 at the ratio 3 (the 3x fast-forward example from the
UI): the chain is built, every factor is in range, and the product matches. -/
theorem c2_witness :
    (0 : ℚ) < 3 ∧
      ((∀ s ∈ Concat._build_atempo_chain 3, 1/2 ≤ s ∧ s ≤ 2) ∧
        ∃ ε : ℚ, |ε - 1| ≤ 1/1000000 ∧ (Concat._build_atempo_chain 3).prod * ε = 3) :=
  ⟨by norm_num, c2_atempo_chain_correct 3 (by norm_num)⟩

/-! ### The ffmpeg progress parser (claims C5, C6) -/

theorem dropWhile_all_false {p : Char → Bool} :
    ∀ l : List Char, (∀ c ∈ l, p c = false) → l.dropWhile p = l := by
  intro l h
  induction l with
  | nil => rfl
  | cons c cs _ =>
    rw [List.dropWhile_cons, h c (by simp)]
    simp

theorem pyStrip_of_no_ws (l : List Char) (h : ∀ c ∈ l, pyIsWs c = false) :
    pyStrip l = l := by
  unfold pyStrip
  rw [dropWhile_all_false l h,
    dropWhile_all_false l.reverse (fun c hc => h c (List.mem_reverse.mp hc)),
    List.reverse_reverse]

theorem pyIsDigit_not_ws (c : Char) (h : pyIsDigit c = true) : pyIsWs c = false := by
  unfold pyIsDigit at h
  unfold pyIsWs
  simp only [Bool.and_eq_true, decide_eq_true_eq] at h
  simp only [Bool.or_eq_false_iff, decide_eq_false_iff_not]
  omega

theorem listStartsWith_append (p l : List Char) : listStartsWith p (p ++ l) = true := by
  induction p with
  | nil => rfl
  | cons c cs ih => simp [listStartsWith, ih]

theorem splitEqOnce_append (pre : List Char) (hpre : ∀ c ∈ pre, c ≠ '=') (rest : List Char) :
    splitEqOnce (pre ++ '=' :: rest) = (pre, rest) := by
  induction pre with
  | nil => simp [splitEqOnce]
  | cons c cs ih =>
    have hc : ¬ c = '=' := hpre c (by simp)
    simp only [List.cons_append, splitEqOnce, List.append_eq]
    rw [if_neg hc, ih (fun x hx => hpre x (by simp [hx]))]

theorem parseDigits?_digits (l : List Char) (hne : l ≠ []) (hd : ∀ c ∈ l, pyIsDigit c = true) :
    parseDigits? l = some (digitsToNat l) := by
  cases l with
  | nil => exact absurd rfl hne
  | cons c rest =>
    unfold parseDigits?
    rw [if_pos]
    simp only [List.isEmpty_cons, Bool.not_false, Bool.true_and, List.all_eq_true]
    exact hd

theorem pyInt?_digits (l : List Char) (hne : l ≠ []) (hd : ∀ c ∈ l, pyIsDigit c = true) :
    pyInt? l = some ((digitsToNat l : Int)) := by
  cases l with
  | nil => exact absurd rfl hne
  | cons c rest =>
    have hc := hd c (by simp)
    have hminus : ¬ c = '-' := by rintro rfl; exact absurd hc (by decide)
    have hplus : ¬ c = '+' := by rintro rfl; exact absurd hc (by decide)
    simp only [pyInt?]
    rw [if_neg hminus, if_neg hplus, parseDigits?_digits (c :: rest) hne hd]
    rfl

theorem pyInt?_neg_digits (l : List Char) (hne : l ≠ []) (hd : ∀ c ∈ l, pyIsDigit c = true) :
    pyInt? ('-' :: l) = some (-(digitsToNat l : Int)) := by
  simp [pyInt?, parseDigits?_digits l hne hd]

namespace Concat

/-- On an out_time_ms line whose whitespace-free value string parses as the
integer n, the progress handler fires the callback with n / 1e6 seconds. -/
theorem process_outTimeMs_value (v : List Char) (hv : ∀ c ∈ v, pyIsWs c = false)
    (n : Int) (hn : pyInt? (pyStrip v) = some n) :
    process_progress_line ("out_time_ms=".data ++ v)
      = some ((n : ℚ) / 1000000) := by
  have hkeyws : ∀ c ∈ ("out_time_ms=".data : List Char), pyIsWs c = false := by decide
  have hnows : ∀ c ∈ ("out_time_ms=".data : List Char) ++ v, pyIsWs c = false := by
    intro c hc
    rcases List.mem_append.mp hc with hc | hc
    · exact hkeyws c hc
    · exact hv c hc
  have hstrip := pyStrip_of_no_ws _ hnows
  have hke : ("out_time_ms=".data : List Char) = "out_time_ms".data ++ ['='] := by decide
  have hsplit : splitEqOnce (("out_time_ms=".data : List Char) ++ v)
      = ("out_time_ms".data, v) := by
    rw [hke, List.append_assoc, List.singleton_append]
    exact splitEqOnce_append _ (by decide) _
  have hcons : ("out_time_ms=".data : List Char) ++ v = 'o' :: ("ut_time_ms=".data ++ v) := by
    rw [show ("out_time_ms=".data : List Char) = 'o' :: "ut_time_ms=".data by decide]
    rfl
  unfold process_progress_line
  rw [hstrip]
  rw [show (("out_time_ms=".data : List Char) ++ v).isEmpty = false by
    rw [hcons]; rfl]
  simp only [Bool.false_eq_true, if_false]
  rw [if_pos (listStartsWith_append "out_time_ms=".data v)]
  rw [hsplit]
  simp only
  rw [hn]

/-- On an out_time_ms line carrying a digit string, the progress handler
fires the callback with value / 1e6 seconds. -/
theorem process_outTimeMs (ds : List Char) (hne : ds ≠ [])
    (hd : ∀ c ∈ ds, pyIsDigit c = true) :
    process_progress_line ("out_time_ms=".data ++ ds)
      = some ((digitsToNat ds : ℚ) / 1000000) := by
  have hv : ∀ c ∈ ds, pyIsWs c = false := fun c hc => pyIsDigit_not_ws _ (hd c hc)
  have h := process_outTimeMs_value ds hv (digitsToNat ds)
    (by rw [pyStrip_of_no_ws ds hv]; exact pyInt?_digits ds hne hd)
  rw [h]
  norm_num

/-- Same for a negative value: a minus sign followed by digits. -/
theorem process_outTimeMs_neg (ds : List Char) (hne : ds ≠ [])
    (hd : ∀ c ∈ ds, pyIsDigit c = true) :
    process_progress_line ("out_time_ms=".data ++ '-' :: ds)
      = some (-(digitsToNat ds : ℚ) / 1000000) := by
  have hv : ∀ c ∈ '-' :: ds, pyIsWs c = false := by
    intro c hc
    rcases List.mem_cons.mp hc with rfl | hc
    · rfl
    · exact pyIsDigit_not_ws _ (hd c hc)
  have h := process_outTimeMs_value ('-' :: ds) hv (-(digitsToNat ds : Int))
    (by rw [pyStrip_of_no_ws _ hv]; exact pyInt?_neg_digits ds hne hd)
  rw [h]
  norm_num

/-- The values passed to progress_callback over a run consisting of
out_time_ms lines are exactly the carried values, in order, scaled to
seconds. -/
theorem callback_values_outTimeMs : ∀ dss : List (List Char),
    (∀ ds ∈ dss, ds ≠ [] ∧ ∀ c ∈ ds, pyIsDigit c = true) →
    progress_callback_values (dss.map (fun ds => "out_time_ms=".data ++ ds))
      = dss.map (fun ds => (digitsToNat ds : ℚ) / 1000000)
  | [], _ => rfl
  | ds :: rest, h1 => by
    obtain ⟨hne, hd⟩ := h1 ds (by simp)
    have hrest := callback_values_outTimeMs rest (fun x hx => h1 x (by simp [hx]))
    simp only [List.map_cons, progress_callback_values, List.filterMap_cons,
      process_outTimeMs ds hne hd]
    rw [← progress_callback_values, hrest]

end Concat

/-- C5: the progress parser inside run_ffmpeg_concat converts the exact line
"out_time_ms=1500000" to a callback value of 1.5 seconds, and in general an
out_time_ms= line carrying the decimal representation of an integer n
(optionally with a leading minus sign) yields n / 1,000,000 seconds. -/
theorem c5_progress_line_seconds :
    Concat.process_progress_line "out_time_ms=1500000".data = some (3/2 : ℚ) ∧
    (∀ ds : List Char, ds ≠ [] → (∀ c ∈ ds, pyIsDigit c = true) →
      Concat.process_progress_line ("out_time_ms=".data ++ ds)
        = some ((digitsToNat ds : ℚ) / 1000000)) ∧
    ∀ ds : List Char, ds ≠ [] → (∀ c ∈ ds, pyIsDigit c = true) →
      Concat.process_progress_line ("out_time_ms=".data ++ '-' :: ds)
        = some (-(digitsToNat ds : ℚ) / 1000000) := by
  refine ⟨?_, fun ds hne hd => Concat.process_outTimeMs ds hne hd,
    fun ds hne hd => Concat.process_outTimeMs_neg ds hne hd⟩
  rw [show ("out_time_ms=1500000".data : List Char)
      = "out_time_ms=".data ++ "1500000".data by decide]
  rw [Concat.process_outTimeMs "1500000".data (by decide) (by decide)]
  rw [show digitsToNat "1500000".data = 1500000 by decide]
  simp only [Option.some.injEq]
  norm_num

/-- Witness for C5 at the digit string "7", in both signs. -/
theorem c5_witness :
    Concat.process_progress_line ("out_time_ms=".data ++ ['7'])
        = some ((digitsToNat ['7'] : ℚ) / 1000000) ∧
      Concat.process_progress_line ("out_time_ms=".data ++ '-' :: ['7'])
        = some (-(digitsToNat ['7'] : ℚ) / 1000000) :=
  ⟨c5_progress_line_seconds.2.1 ['7'] (by decide) (by decide),
   c5_progress_line_seconds.2.2 ['7'] (by decide) (by decide)⟩

/-- C6 counterexample: the parser does not enforce monotonicity — a run
whose progress lines report 2.0s and then 1.0s produces the strictly
decreasing callback sequence [2, 1]. -/
theorem c6_counterexample :
    Concat.progress_callback_values
        ["out_time_ms=2000000".data, "out_time_ms=1000000".data] = [2, 1] ∧
      ¬ List.Chain' (· ≤ ·)
        (Concat.progress_callback_values
          ["out_time_ms=2000000".data, "out_time_ms=1000000".data]) := by
  have hv : Concat.progress_callback_values
      ["out_time_ms=2000000".data, "out_time_ms=1000000".data] = [2, 1] := by
    have h := Concat.callback_values_outTimeMs ["2000000".data, "1000000".data] (by decide)
    rw [show (["out_time_ms=2000000".data, "out_time_ms=1000000".data] : List (List Char))
        = ["2000000".data, "1000000".data].map (fun ds => "out_time_ms=".data ++ ds) by decide]
    rw [h]
    simp only [List.map_cons, List.map_nil]
    rw [show digitsToNat "2000000".data = 2000000 by decide,
      show digitsToNat "1000000".data = 1000000 by decide]
    norm_num
  refine ⟨hv, ?_⟩
  rw [hv]
  simp only [List.chain'_cons, List.chain'_singleton, and_true]
  norm_num

/-- C6 (amended): run_ffmpeg_concat forwards the parsed elapsed-seconds
values to progress_callback in input order without filtering or clamping,
so within one run the callback sequence is monotonically non-decreasing
exactly when the times reported by the encoder's progress lines are
non-decreasing (which a well-behaved encoder produces) — it is not
non-decreasing for every possible input sequence. -/
theorem c6_amended_monotone_iff_input_monotone (dss : List (List Char))
    (h1 : ∀ ds ∈ dss, ds ≠ [] ∧ ∀ c ∈ ds, pyIsDigit c = true)
    (h2 : List.Chain' (· ≤ ·) (dss.map digitsToNat)) :
    List.Chain' (· ≤ ·)
      (Concat.progress_callback_values
        (dss.map (fun ds => "out_time_ms=".data ++ ds))) := by
  rw [Concat.callback_values_outTimeMs dss h1]
  rw [List.chain'_map] at h2 ⊢
  refine h2.imp ?_
  intro a b hab
  have hq : (digitsToNat a : ℚ) ≤ (digitsToNat b : ℚ) := by exact_mod_cast hab
  gcongr

/-- Witness for the amended C6 on the non-decreasing run 1, 2. -/
theorem c6_witness :
    List.Chain' (· ≤ ·)
      (Concat.progress_callback_values
        (([['1'], ['2']] : List (List Char)).map (fun ds => "out_time_ms=".data ++ ds))) :=
  c6_amended_monotone_iff_input_monotone [['1'], ['2']] (by decide)
    (by rw [show List.map digitsToNat [['1'], ['2']] = [1, 2] by decide]
        simp [List.chain'_cons])

/-! ### Natural sort (claims C8, C9) -/

/-- Shape of a key list produced by natural_keys: string elements at even
positions, integer elements at odd positions.  The flag is true when a
string element is expected next. -/
def altKey : Bool → List NK → Bool
  | _, [] => true
  | true, NK.str _ :: rest => altKey false rest
  | false, NK.num _ :: rest => altKey true rest
  | _, _ => false

/-- Shape of the chunk list produced by re.split(r'(\d+)', text): when the
flag is true a digit-free chunk comes next, when false a nonempty all-digit
chunk; the list always ends with a (possibly empty) digit-free chunk. -/
def chunksOk : Bool → List (List Char) → Bool
  | _, [] => false
  | true, [s] => s.all (fun c => !pyIsDigit c)
  | true, s :: rest => s.all (fun c => !pyIsDigit c) && chunksOk false rest
  | false, d :: rest => !d.isEmpty && d.all pyIsDigit && chunksOk true rest

theorem chunksOk_true_single (s : List Char) :
    chunksOk true [s] = s.all (fun c => !pyIsDigit c) := rfl

theorem chunksOk_true_cons (s d : List Char) (rest : List (List Char)) :
    chunksOk true (s :: d :: rest)
      = (s.all (fun c => !pyIsDigit c) && chunksOk false (d :: rest)) := rfl

theorem chunksOk_false_cons (d : List Char) (rest : List (List Char)) :
    chunksOk false (d :: rest)
      = (!d.isEmpty && d.all pyIsDigit && chunksOk true rest) := rfl

theorem altKey_true_str (s : List Char) (rest : List NK) :
    altKey true (NK.str s :: rest) = altKey false rest := rfl

theorem altKey_false_num (n : Nat) (rest : List NK) :
    altKey false (NK.num n :: rest) = altKey true rest := rfl

theorem altKey_true_num (n : Nat) (rest : List NK) :
    altKey true (NK.num n :: rest) = false := rfl

theorem altKey_false_str (s : List Char) (rest : List NK) :
    altKey false (NK.str s :: rest) = false := rfl

theorem not_isEmpty_of_ne_nil {l : List Char} (h : l ≠ []) : (!l.isEmpty) = true := by
  cases l with
  | nil => exact absurd rfl h
  | cons a as => rfl

theorem ne_nil_of_not_isEmpty {l : List Char} (h : (!l.isEmpty) = true) : l ≠ [] := by
  cases l with
  | nil => simp at h
  | cons a as => simp

theorem reSplitGo_ok : ∀ cs : List Char,
    (∀ acc : List Char, (∀ c ∈ acc, pyIsDigit c = false) →
      chunksOk true (reSplitGo cs false acc) = true) ∧
    (∀ acc : List Char, acc ≠ [] → (∀ c ∈ acc, pyIsDigit c = true) →
      chunksOk false (reSplitGo cs true acc) = true) := by
  intro cs
  induction cs with
  | nil =>
    constructor
    · intro acc h
      simp only [reSplitGo, chunksOk_true_single, List.all_eq_true, List.mem_reverse]
      intro c hc
      simp [h c hc]
    · intro acc hne h
      simp only [reSplitGo, chunksOk_false_cons, Bool.and_eq_true]
      refine ⟨⟨not_isEmpty_of_ne_nil (by simpa using hne), ?_⟩, rfl⟩
      simp only [List.all_eq_true, List.mem_reverse]
      exact fun c hc => h c hc
  | cons c cs ih =>
    constructor
    · intro acc h
      simp only [reSplitGo]
      by_cases hc : pyIsDigit c = true
      · rw [if_pos hc]
        have h2 := ih.2 [c] (by simp) (by simpa using hc)
        cases hrest : reSplitGo cs true [c] with
        | nil => rw [hrest] at h2; simp [chunksOk] at h2
        | cons d rs =>
          rw [hrest] at h2
          rw [chunksOk_true_cons, Bool.and_eq_true]
          refine ⟨?_, h2⟩
          simp only [List.all_eq_true, List.mem_reverse]
          intro x hx
          simp [h x hx]
      · rw [if_neg hc]
        refine ih.1 (c :: acc) ?_
        intro x hx
        rcases List.mem_cons.mp hx with rfl | hx
        · simpa using hc
        · exact h x hx
    · intro acc hne h
      simp only [reSplitGo]
      by_cases hc : pyIsDigit c = true
      · rw [if_pos hc]
        refine ih.2 (c :: acc) (by simp) ?_
        intro x hx
        rcases List.mem_cons.mp hx with rfl | hx
        · exact hc
        · exact h x hx
      · rw [if_neg hc]
        rw [chunksOk_false_cons, Bool.and_eq_true, Bool.and_eq_true]
        refine ⟨⟨not_isEmpty_of_ne_nil (by simpa using hne), ?_⟩, ?_⟩
        · simp only [List.all_eq_true, List.mem_reverse]
          exact fun x hx => h x hx
        · exact ih.1 [c] (by simpa using hc)

theorem atoi_of_nondigit (s : List Char) (h : s.all (fun c => !pyIsDigit c) = true) :
    Concat.atoi s = .str (s.map Char.toLower) := by
  unfold Concat.atoi
  cases s with
  | nil => simp
  | cons c cs =>
    have hc : pyIsDigit c = false := by
      simpa using List.all_eq_true.mp h c (by simp)
    have hcond : ((c :: cs).all pyIsDigit && !(c :: cs).isEmpty) = false := by
      simp [List.all_cons, hc]
    rw [if_neg (by rw [hcond]; exact Bool.false_ne_true)]

theorem atoi_of_digits (s : List Char) (hne : s ≠ []) (h : s.all pyIsDigit = true) :
    Concat.atoi s = .num (digitsToNat s) := by
  unfold Concat.atoi
  rw [if_pos]
  rw [Bool.and_eq_true, h]
  exact ⟨rfl, not_isEmpty_of_ne_nil hne⟩

theorem chunksOk_map_atoi : ∀ cs : List (List Char),
    (chunksOk true cs = true → altKey true (cs.map Concat.atoi) = true) ∧
    (chunksOk false cs = true → altKey false (cs.map Concat.atoi) = true) := by
  intro cs
  induction cs with
  | nil =>
    exact ⟨fun h => by simp [chunksOk] at h, fun h => by simp [chunksOk] at h⟩
  | cons s rest ih =>
    constructor
    · intro h
      cases rest with
      | nil =>
        rw [chunksOk_true_single] at h
        simp only [List.map_cons, List.map_nil, atoi_of_nondigit s h, altKey_true_str]
        rfl
      | cons d rest' =>
        rw [chunksOk_true_cons, Bool.and_eq_true] at h
        obtain ⟨hs, hrest⟩ := h
        rw [List.map_cons, atoi_of_nondigit s hs, altKey_true_str]
        exact (ih.2) hrest
    · intro h
      rw [chunksOk_false_cons, Bool.and_eq_true, Bool.and_eq_true] at h
      obtain ⟨⟨hne, hd⟩, hrest⟩ := h
      rw [List.map_cons, atoi_of_digits s (ne_nil_of_not_isEmpty hne) hd, altKey_false_num]
      exact (ih.1) hrest

theorem keyCompare_total : ∀ (a : List NK) (flag : Bool) (b : List NK),
    altKey flag a = true → altKey flag b = true → (keyCompare a b).isSome = true := by
  intro a
  induction a with
  | nil => intro flag b _ _; cases b <;> simp [keyCompare]
  | cons x xs ih =>
    intro flag b ha hb
    cases b with
    | nil => simp [keyCompare]
    | cons y ys =>
      cases flag
      · cases x with
        | str s => rw [altKey_false_str] at ha; exact absurd ha Bool.false_ne_true
        | num n =>
          cases y with
          | str t => rw [altKey_false_str] at hb; exact absurd hb Bool.false_ne_true
          | num m =>
            rw [altKey_false_num] at ha hb
            cases hcmp : compare n m with
            | eq => simpa [keyCompare, nkCompare, hcmp] using ih true ys ha hb
            | lt => simp [keyCompare, nkCompare, hcmp]
            | gt => simp [keyCompare, nkCompare, hcmp]
      · cases x with
        | num n => rw [altKey_true_num] at ha; exact absurd ha Bool.false_ne_true
        | str s =>
          cases y with
          | num m => rw [altKey_true_num] at hb; exact absurd hb Bool.false_ne_true
          | str t =>
            rw [altKey_true_str] at ha hb
            cases hcmp : charListCompare s t with
            | eq => simpa [keyCompare, nkCompare, hcmp] using ih false ys ha hb
            | lt => simp [keyCompare, nkCompare, hcmp]
            | gt => simp [keyCompare, nkCompare, hcmp]

/-- C9: every key produced by natural_keys alternates string elements (even
positions, possibly empty) with integer elements (odd positions), so
comparing the keys of any two strings only ever compares int with int and
str with str — the sort comparison is always defined and never raises. -/
theorem c9_keys_always_comparable :
    (∀ s : String, altKey true (Concat.natural_keys s) = true ∧
      altKey true (Viewer.natural_keys s) = true) ∧
    ∀ s t : String,
      (keyCompare (Concat.natural_keys s) (Concat.natural_keys t)).isSome = true := by
  have key : ∀ s : String, altKey true (Concat.natural_keys s) = true := by
    intro s
    unfold Concat.natural_keys reSplitDigits
    exact (chunksOk_map_atoi _).1 ((reSplitGo_ok s.data).1 [] (by simp))
  exact ⟨fun s => ⟨key s, key s⟩, fun s t => keyCompare_total _ true _ (key s) (key t)⟩

/-- C8: natural_keys parses embedded digit runs as numbers, so under the
key comparison used by sorted(...) the name "clip2" sorts strictly before
"clip10"; the player's natural_keys is the same function as the
concatenator's, so both folder scans order files identically. -/
theorem c8_natural_sort_clip2_before_clip10 :
    keyCompare (Concat.natural_keys "clip2") (Concat.natural_keys "clip10") = some .lt ∧
    keyCompare (Concat.natural_keys "clip10") (Concat.natural_keys "clip2") = some .gt ∧
    Concat.natural_keys "clip2" = [.str "clip".data, .num 2, .str []] ∧
    ∀ s : String, Viewer.natural_keys s = Concat.natural_keys s :=
  ⟨by decide, by decide, by decide, fun s => rfl⟩
